import Mathlib

/-!
Verification development for the BELEX Streamlit repository
(`app.py`, `app_unibe.py`, `belex_search.py`).

The Python source is shallowly embedded: each relevant function is
translated to an executable Lean definition, with HTTP traffic and other
external effects made explicit as arguments (the response the vendor
returned, the outcome of a vendor SDK call, ...).  Machine-level details
that the claims do not touch (request headers, URLs) are not modelled.
-/

namespace Belex

/-! ## Shared data model -/

/-- One document record of the vendor catalog, as consumed by the apps:
a dictionary carrying the opaque resource `name` and, optionally, a
`displayName` key (`doc.get('displayName', 'Unbekannt')` supplies the
default when the key is absent). -/
structure Doc where
  name : String
  displayName : Option String
deriving DecidableEq, Repr

/-! ## `delete_document` (app.py lines 157-175, app_unibe.py lines 190-216)

Both variants issue `DELETE .../v1beta/{document_name}?force=true` and then
branch purely on the HTTP status of the response.  The embedding takes the
status and body of the vendor's response and returns the boolean result
together with the list of error strings passed to `st.error` (the
"surfaced" status and body). -/

/-- Embedding of `delete_document` from `app.py`: success exactly on
status 200 (`if response.status_code == 200`); otherwise two error
messages are shown, one holding the status and one the raw body. -/
def delete_document_app (status : Nat) (body : String) : Bool × List String :=
  if status = 200 then
    (true, [])
  else
    (false, ["Fehler beim Löschen: " ++ toString status, body])

/-- Embedding of `delete_document` from `app_unibe.py`: success on
status 200 or 204 (`if response.status_code in [200, 204]`); otherwise two
error messages are shown, one holding the status and one the body. -/
def delete_document_unibe (status : Nat) (body : String) : Bool × List String :=
  if status = 200 ∨ status = 204 then
    (true, [])
  else
    (false, ["Fehler beim Löschen: Status " ++ toString status, "Response: " ++ body])

/-! ## `get_law_name` (app.py lines 40-56)

The function issues a GET with a 5-second timeout and post-processes the
response inside a `try`/`except` that swallows every exception.  The
embedding takes the outcome of the GET as a value:

* `exn` — `requests.get` raised (timeout, connection error, ...);
* `ok status json` — a response arrived with the given status; `json` is
  the result of `response.json()` followed by the two
  `data.get("text_of_law", {}).get(..., "")` lookups: `none` when
  `.json()` raises (parse error), `some (title, abbreviation)` otherwise,
  with absent fields already defaulted to `""` by `.get`. -/
inductive FetchOutcome where
  | exn
  | ok (status : Nat) (json : Option (String × String))
deriving DecidableEq, Repr

/-- Embedding of `get_law_name`.  Python string truthiness (`if title and
abbreviation`) is the nonemptiness test on the `.get(..., "")` defaults. -/
def get_law_name (r : FetchOutcome) : Option String :=
  match r with
  | .exn => none
  | .ok status json =>
    if status = 200 then
      match json with
      | none => none
      | some (title, abbreviation) =>
        if title ≠ "" ∧ abbreviation ≠ "" then
          some (title ++ " (" ++ abbreviation ++ ")")
        else if title ≠ "" then
          some title
        else
          none
    else
      none

end Belex

/-- C1 counterexample: the claim asserts that `delete_document` (in both
variants) reports success exactly on HTTP 200 or 204, but the `app.py`
variant reports *failure* on 204: 204 is in the claimed success set, yet
`delete_document_app` returns `false` and surfaces an error. -/
theorem C1_delete_status_204_app_fails :
    (204 = 200 ∨ 204 = 204) ∧
    (Belex.delete_document_app 204 "").1 = false ∧
    (Belex.delete_document_app 204 "").2 ≠ [] := by
  refine ⟨Or.inr rfl, rfl, ?_⟩
  decide

/-- C1 amended: the `app_unibe.py` variant reports success exactly on
HTTP 200 or 204, while the `app.py` variant reports success exactly on
HTTP 200 (204 included in the failures); in each variant every
non-success status surfaces the status and the body to the user as the
two error strings shown. -/
theorem C1_delete_status_amended (status : Nat) (body : String) :
    ((Belex.delete_document_unibe status body).1 =
      (decide (status = 200) || decide (status = 204))) ∧
    ((Belex.delete_document_app status body).1 = decide (status = 200)) ∧
    ((Belex.delete_document_unibe status body).2 =
      if status = 200 ∨ status = 204 then []
      else ["Fehler beim Löschen: Status " ++ toString status, "Response: " ++ body]) ∧
    ((Belex.delete_document_app status body).2 =
      if status = 200 then []
      else ["Fehler beim Löschen: " ++ toString status, body]) := by
  unfold Belex.delete_document_unibe Belex.delete_document_app
  by_cases h200 : status = 200 <;> by_cases h204 : status = 204 <;>
    simp [h200, h204]

/-- C6: `get_law_name` on HTTP 200 with both title and abbreviation
nonempty returns `"title (abbreviation)"`; on HTTP 200 with only a
nonempty title it returns just the title; in every other case (missing
title, non-200 status such as 404/500, timeout or network/parse
exception) it returns `none` — and, being a total function of the fetch
outcome, it never propagates an exception to the caller. -/
theorem C6_get_law_name_cases :
    (∀ t a : String, t ≠ "" → a ≠ "" →
      Belex.get_law_name (.ok 200 (some (t, a))) = some (t ++ " (" ++ a ++ ")")) ∧
    (∀ t : String, t ≠ "" →
      Belex.get_law_name (.ok 200 (some (t, ""))) = some t) ∧
    (∀ a : String, Belex.get_law_name (.ok 200 (some ("", a))) = none) ∧
    (∀ status : Nat, ∀ j : Option (String × String), status ≠ 200 →
      Belex.get_law_name (.ok status j) = none) ∧
    (Belex.get_law_name (.ok 404 (some ("t", "a"))) = none) ∧
    (Belex.get_law_name (.ok 500 (some ("t", "a"))) = none) ∧
    (Belex.get_law_name (.ok 200 none) = none) ∧
    (Belex.get_law_name .exn = none) := by
  refine ⟨?_, ?_, ?_, ?_, by decide, by decide, rfl, rfl⟩
  · intro t a ht ha
    simp [Belex.get_law_name, ht, ha]
  · intro t ht
    simp [Belex.get_law_name, ht]
  · intro a
    simp [Belex.get_law_name]
  · intro status j h
    simp [Belex.get_law_name, h]

/-- C6 witness: the hypothesised branches of `C6_get_law_name_cases`
instantiated at concrete inputs. -/
theorem C6_get_law_name_cases_witness :
    Belex.get_law_name (.ok 200 (some ("Personalgesetz", "PG"))) =
      some ("Personalgesetz" ++ " (" ++ "PG" ++ ")") ∧
    Belex.get_law_name (.ok 200 (some ("Personalgesetz", ""))) = some "Personalgesetz" ∧
    Belex.get_law_name (.ok 404 (some ("t", "a"))) = none := by
  refine ⟨?_, ?_, ?_⟩
  · exact C6_get_law_name_cases.1 "Personalgesetz" "PG" (by decide) (by decide)
  · exact C6_get_law_name_cases.2.1 "Personalgesetz" (by decide)
  · exact C6_get_law_name_cases.2.2.2.2.1

namespace Belex

/-! ## `upload_file_to_filestore` (app.py lines 126-154, app_unibe.py lines 148-187)

The function body is a sequence of effects: it evaluates
`Path(uploaded_file.name).suffix`, creates and writes a named temporary
file (`delete=False`), runs the vendor SDK upload inside an inner `try`
whose `finally` removes the temporary file, and converts any exception
into `st.error` + `return None` via the outer `except Exception`.

The embedding records that effect sequence as an explicit event trace.
Python resolves the bare name `Path` against the local, module-global and
builtin scopes; `Path` is not a Python builtin, so evaluating it succeeds
exactly when one of the module's imports (or a local binding) bound the
name `Path`.  The names in scope inside each variant's
`upload_file_to_filestore` are transcribed below from the source's
parameter list, its local `import` statements and the module's top-level
bindings. -/

inductive Ev where
  | createTmp
  | writeTmp
  | vendorCall
  | unlinkTmp
  | errorShown
deriving DecidableEq, Repr

/-- Outcome of the vendor SDK call `upload_to_file_search_store`: it
either returns an upload response or raises. -/
inductive VendorOutcome where
  | success
  | raises
deriving DecidableEq, Repr

/-- Result of one run of `upload_file_to_filestore`: the effect trace and
the returned value (`some ()` stands for the upload response object,
`none` for the `return None` of the exception handler). -/
structure UploadRun where
  events : List Ev
  result : Option Unit
deriving DecidableEq, Repr

/-- Names in scope inside `upload_file_to_filestore` of `app.py`: the
function's parameters, its local imports (`tempfile`, `os`) and the
module's top-level imports and definitions (app.py lines 6-12 import
`re`, `requests`, `streamlit as st`, `BELEXSearchEngine`, `genai`,
`types`; `pathlib.Path` is never imported). -/
def appPyUploadScope : List String :=
  ["client", "filestore_id", "uploaded_file", "display_name",
   "tempfile", "os",
   "re", "requests", "st", "BELEXSearchEngine", "genai", "types",
   "load_config", "extract_bsg_number", "get_law_name",
   "format_grounding_chunks", "list_documents", "upload_file_to_filestore",
   "delete_document", "main"]

/-- Names in scope inside `upload_file_to_filestore` of `app_unibe.py`:
as for `app.py`, plus the module-level `from pathlib import Path`
(app_unibe.py line 8), the local `datetime` import, and the extra
top-level bindings of that variant. -/
def unibeUploadScope : List String :=
  ["client", "filestore_id", "uploaded_file", "display_name",
   "tempfile", "os", "datetime",
   "re", "Path", "requests", "st", "BELEXSearchEngine", "genai", "types",
   "DEFAULT_SYSTEM_PROMPT", "load_config", "extract_bsg_number",
   "get_law_name", "format_grounding_chunks", "list_documents",
   "upload_file_to_filestore", "delete_document",
   "search_with_custom_prompt", "main"]

/-- Embedding of `upload_file_to_filestore` as an event trace.  The first
evaluated expression that can fail is the keyword argument
`suffix=Path(uploaded_file.name).suffix` of `NamedTemporaryFile`: if
`Path` is not a resolvable name a `NameError` is raised there — before
the temporary file is created and before any vendor call — and the outer
`except Exception` turns it into `st.error` + `return None`.  Otherwise
the temporary file is created and written, the vendor call runs inside
the inner `try`, and the `finally` block unlinks the temporary file
whether the call returned or raised; a raise is then caught by the outer
handler. -/
def upload_file_to_filestore (scope : List String) (o : VendorOutcome) : UploadRun :=
  if "Path" ∈ scope then
    match o with
    | .success => ⟨[.createTmp, .writeTmp, .vendorCall, .unlinkTmp], some ()⟩
    | .raises => ⟨[.createTmp, .writeTmp, .vendorCall, .unlinkTmp, .errorShown], none⟩
  else
    ⟨[.errorShown], none⟩

/-- Whether the temporary file exists after a trace of events: created by
`createTmp`, destroyed by `unlinkTmp`. -/
def tmpAlive (evs : List Ev) : Bool :=
  evs.foldl (fun b e =>
    match e with
    | .createTmp => true
    | .unlinkTmp => false
    | _ => b) false

/-- Rendering of the upload sub-tab of `main` (app.py lines 604-625,
app_unibe.py lines 834-855) for a chosen file of `fileBytes` bytes.
`file_size_mb = len(...)/(1024*1024)` is an exact binary-scaled division
for any realistic size (the numerator is below 2^53), so
`file_size_mb > 100` holds exactly when `fileBytes > 100*1024*1024`.
When the size check fails, only `st.error` runs — the upload button is
never rendered.  Otherwise the button is offered, and if it is clicked
`upload_file_to_filestore` runs, its `None` result reported through a
further `st.error`. -/
structure UploadSection where
  buttonOffered : Bool
  events : List Ev
  result : Option Unit
deriving DecidableEq, Repr

def mainUploadSection (scope : List String) (fileBytes : Nat)
    (clicked : Bool) (o : VendorOutcome) : UploadSection :=
  if 100 * 1024 * 1024 < fileBytes then
    ⟨false, [.errorShown], none⟩
  else if clicked then
    let r := upload_file_to_filestore scope o
    ⟨true, r.events ++ (if r.result.isSome then [] else [.errorShown]), r.result⟩
  else
    ⟨true, [], none⟩

end Belex

/-- C2: in the public variant `app.py` the name `Path` is not in scope
inside `upload_file_to_filestore`, so every invocation — whatever the
vendor call would have done — raises a `NameError` that the outer handler
converts to the failure result `None`; no vendor call is made and no
temporary file is even created. -/
theorem C2_app_upload_always_fails (o : Belex.VendorOutcome) :
    (Belex.upload_file_to_filestore Belex.appPyUploadScope o).result = none ∧
    (Belex.upload_file_to_filestore Belex.appPyUploadScope o).events = [Belex.Ev.errorShown] ∧
    Belex.Ev.vendorCall ∉ (Belex.upload_file_to_filestore Belex.appPyUploadScope o).events ∧
    Belex.Ev.createTmp ∉ (Belex.upload_file_to_filestore Belex.appPyUploadScope o).events := by
  have hp : ("Path" ∈ Belex.appPyUploadScope) = False := by
    simp [Belex.appPyUploadScope]
  cases o <;> simp [Belex.upload_file_to_filestore, hp]

/-- C8: in every invocation of `upload_file_to_filestore` in which the
temporary file is created, the temporary file is removed again before the
function returns, whether the vendor upload call succeeds or raises. -/
theorem C8_tmp_file_always_removed (scope : List String) (o : Belex.VendorOutcome)
    (h : Belex.Ev.createTmp ∈ (Belex.upload_file_to_filestore scope o).events) :
    Belex.Ev.unlinkTmp ∈ (Belex.upload_file_to_filestore scope o).events ∧
    Belex.tmpAlive (Belex.upload_file_to_filestore scope o).events = false := by
  by_cases hp : "Path" ∈ scope <;> cases o <;>
    simp [Belex.upload_file_to_filestore, hp, Belex.tmpAlive] at h ⊢

/-- C8 witness: `C8_tmp_file_always_removed` applied to the
`app_unibe.py` scope with a successful vendor call, where the temporary
file is indeed created. -/
theorem C8_tmp_file_always_removed_witness :
    Belex.Ev.unlinkTmp ∈
      (Belex.upload_file_to_filestore Belex.unibeUploadScope .success).events ∧
    Belex.tmpAlive
      (Belex.upload_file_to_filestore Belex.unibeUploadScope .success).events = false :=
  C8_tmp_file_always_removed Belex.unibeUploadScope .success (by decide)

/-- C9: a file strictly larger than 100 MB (for instance 150 MB) is
rejected client-side: the upload button is not offered, only an error is
shown, and no vendor call happens in any circumstance; a file of at most
100 MB gets the upload button offered. -/
theorem C9_upload_size_gate (scope : List String) (fileBytes : Nat)
    (clicked : Bool) (o : Belex.VendorOutcome) :
    (100 * 1024 * 1024 < fileBytes →
      (Belex.mainUploadSection scope fileBytes clicked o).buttonOffered = false ∧
      (Belex.mainUploadSection scope fileBytes clicked o).events = [Belex.Ev.errorShown] ∧
      Belex.Ev.vendorCall ∉ (Belex.mainUploadSection scope fileBytes clicked o).events) ∧
    (fileBytes ≤ 100 * 1024 * 1024 →
      (Belex.mainUploadSection scope fileBytes clicked o).buttonOffered = true) := by
  constructor
  · intro h
    simp [Belex.mainUploadSection, h]
  · intro h
    have h2 : ¬ (100 * 1024 * 1024 < fileBytes) := not_lt.mpr h
    by_cases hc : clicked <;> simp [Belex.mainUploadSection, h2, hc]

/-- C9 witness: a 150 MB file is rejected with no vendor call, and a
100 MB file still gets the button. -/
theorem C9_upload_size_gate_witness :
    ((Belex.mainUploadSection Belex.unibeUploadScope (150 * 1024 * 1024) true .success).buttonOffered = false ∧
      (Belex.mainUploadSection Belex.unibeUploadScope (150 * 1024 * 1024) true .success).events = [Belex.Ev.errorShown] ∧
      Belex.Ev.vendorCall ∉ (Belex.mainUploadSection Belex.unibeUploadScope (150 * 1024 * 1024) true .success).events) ∧
    (Belex.mainUploadSection Belex.unibeUploadScope (100 * 1024 * 1024) true .success).buttonOffered = true :=
  ⟨(C9_upload_size_gate Belex.unibeUploadScope (150 * 1024 * 1024) true .success).1 (by decide),
   (C9_upload_size_gate Belex.unibeUploadScope (100 * 1024 * 1024) true .success).2 (by decide)⟩

namespace Belex

/-! ## `format_grounding_chunks` (app.py lines 59-87, app_unibe.py lines 81-109)

The response object is traversed attribute by attribute; `hasattr` tests
are modelled by `Option` fields.  The Python dict `sources_dict` is an
insertion-ordered association list; `sources_dict[title] = []` /
`.append` become `dictEnsure` / `dictAppend` below. -/

/-- A `retrieved_context` object: a `title` attribute (when present) and
a `text` attribute (when present; may be the empty string, which is
falsy in Python). -/
structure RContext where
  title : Option String
  text : Option String
deriving DecidableEq, Repr

/-- A grounding chunk: carries a `retrieved_context` attribute or not. -/
structure GroundingChunk where
  retrieved_context : Option RContext
deriving DecidableEq, Repr

structure GroundingMetadata where
  grounding_chunks : List GroundingChunk
deriving DecidableEq, Repr

/-- A response candidate: `grounding_metadata` attribute or not. -/
structure Candidate where
  grounding_metadata : Option GroundingMetadata
deriving DecidableEq, Repr

/-- The part of the generate-content response that
`format_grounding_chunks` inspects (an absent `candidates` attribute
behaves like an empty list: both fail the `len > 0` guard). -/
structure GenResponse where
  candidates : List Candidate
deriving DecidableEq, Repr

/-- The ASCII whitespace set of Python's `str.strip()`. -/
def isPyStripSpace (c : Char) : Bool :=
  c = ' ' || c = '\t' || c = '\n' || c = '\r' || c = '\x0b' || c = '\x0c'

/-- Embedding of Python `str.strip()`: drop leading and trailing
whitespace. -/
def pystrip (s : String) : String :=
  String.mk (((s.data.dropWhile isPyStripSpace).reverse.dropWhile isPyStripSpace).reverse)

/-- Ordered-dict append: `sources_dict.setdefault(title, []).append(s)`
shape used by the source (`if title not in ...: ... = []` followed by
`.append`): appends `s` to the entry of `t`, creating the entry at the
end when `t` is new. -/
def dictAppend (m : List (String × List String)) (t s : String) :
    List (String × List String) :=
  match m with
  | [] => [(t, [s])]
  | (k, v) :: rest =>
    if k = t then (k, v ++ [s]) :: rest else (k, v) :: dictAppend rest t s

/-- Ordered-dict ensure: `if title not in sources_dict:
sources_dict[title] = []` — adds an empty entry at the end when `t` is
new, otherwise leaves the dict unchanged. -/
def dictEnsure (m : List (String × List String)) (t : String) :
    List (String × List String) :=
  match m with
  | [] => [(t, [])]
  | (k, v) :: rest =>
    if k = t then (k, v) :: rest else (k, v) :: dictEnsure rest t

/-- Ordered-dict lookup. -/
def dictLookup (m : List (String × List String)) (t : String) :
    Option (List String) :=
  match m with
  | [] => none
  | (k, v) :: rest => if k = t then some v else dictLookup rest t

def dictKeys (m : List (String × List String)) : List String :=
  m.map Prod.fst

/-- The loop body of `format_grounding_chunks` for one chunk. -/
def processChunk (m : List (String × List String)) (c : GroundingChunk) :
    List (String × List String) :=
  match c.retrieved_context with
  | none => m
  | some ctx =>
    match ctx.title with
    | none => m
    | some title =>
      match ctx.text with
      | some s =>
        if s ≠ "" then dictAppend m title (pystrip s) else dictEnsure m title
      | none => dictEnsure m title

/-- Embedding of `format_grounding_chunks`: the attribute guards, then
the chunk loop over an initially empty dict. -/
def format_grounding_chunks (r : GenResponse) : List (String × List String) :=
  match r.candidates with
  | [] => []
  | cand :: _ =>
    match cand.grounding_metadata with
    | none => []
    | some g =>
      if g.grounding_chunks.length = 0 then []
      else g.grounding_chunks.foldl processChunk []

/-- The chunk list the function actually loops over (empty when any of
the attribute guards fails). -/
def effectiveChunks (r : GenResponse) : List GroundingChunk :=
  match r.candidates with
  | [] => []
  | cand :: _ =>
    match cand.grounding_metadata with
    | none => []
    | some g => g.grounding_chunks

/-- The title a chunk contributes, when it has both a
`retrieved_context` and a `title`. -/
def chunkTitle (c : GroundingChunk) : Option String :=
  c.retrieved_context.bind fun ctx => ctx.title

/-- The titles encountered by the loop, in chunk order. -/
def chunkTitles (cs : List GroundingChunk) : List String :=
  cs.filterMap chunkTitle

/-- The snippet a chunk contributes: present exactly when the chunk has
a context with a title and a non-empty (truthy) `text`; the contributed
snippet is the stripped text. -/
def chunkSnippet (c : GroundingChunk) : Option String :=
  match c.retrieved_context with
  | none => none
  | some ctx =>
    match ctx.title, ctx.text with
    | some _, some s => if s ≠ "" then some (pystrip s) else none
    | _, _ => none

/-- The snippets contributed for a given title, in encounter order. -/
def snippetsFor (t : String) (cs : List GroundingChunk) : List String :=
  cs.filterMap fun c => if chunkTitle c = some t then chunkSnippet c else none

theorem dictLookup_dictAppend (m : List (String × List String)) (t s u : String) :
    dictLookup (dictAppend m t s) u =
      if u = t then some ((dictLookup m u).getD [] ++ [s]) else dictLookup m u := by
  induction m with
  | nil =>
    by_cases h : u = t
    · subst h
      simp [dictAppend, dictLookup]
    · have h2 : ¬ t = u := fun hh => h hh.symm
      simp [dictAppend, dictLookup, h, h2]
  | cons kv rest ih =>
    obtain ⟨k, v⟩ := kv
    by_cases hk : k = t
    · subst hk
      by_cases hu : u = k
      · subst hu
        simp [dictAppend, dictLookup]
      · have h2 : ¬ k = u := fun hh => hu hh.symm
        simp [dictAppend, dictLookup, hu, h2]
    · by_cases hu : k = u
      · subst hu
        have h2 : ¬ k = t := hk
        simp [dictAppend, dictLookup, hk, h2]
      · simp [dictAppend, dictLookup, hk, hu, ih]

theorem dictLookup_dictEnsure (m : List (String × List String)) (t u : String) :
    dictLookup (dictEnsure m t) u =
      if u = t then some ((dictLookup m u).getD []) else dictLookup m u := by
  induction m with
  | nil =>
    by_cases h : u = t
    · subst h
      simp [dictEnsure, dictLookup]
    · have h2 : ¬ t = u := fun hh => h hh.symm
      simp [dictEnsure, dictLookup, h, h2]
  | cons kv rest ih =>
    obtain ⟨k, v⟩ := kv
    by_cases hk : k = t
    · subst hk
      by_cases hu : u = k
      · subst hu
        simp [dictEnsure, dictLookup]
      · have h2 : ¬ k = u := fun hh => hu hh.symm
        simp [dictEnsure, dictLookup, hu, h2]
    · by_cases hu : k = u
      · subst hu
        have h2 : ¬ k = t := hk
        simp [dictEnsure, dictLookup, hk, h2]
      · simp [dictEnsure, dictLookup, hk, hu, ih]

theorem dictKeys_dictAppend (m : List (String × List String)) (t s : String) :
    dictKeys (dictAppend m t s) =
      if t ∈ dictKeys m then dictKeys m else dictKeys m ++ [t] := by
  induction m with
  | nil => simp [dictAppend, dictKeys]
  | cons kv rest ih =>
    obtain ⟨k, v⟩ := kv
    by_cases hk : k = t
    · subst hk
      simp [dictAppend, dictKeys]
    · have hne : t ≠ k := fun h => hk h.symm
      have step : dictAppend ((k, v) :: rest) t s = (k, v) :: dictAppend rest t s := by
        simp [dictAppend, hk]
      rw [step]
      simp only [dictKeys, List.map_cons] at ih ⊢
      rw [ih]
      by_cases hmem : t ∈ List.map Prod.fst rest <;>
        simp [List.mem_cons, hmem, hne]

theorem dictKeys_dictEnsure (m : List (String × List String)) (t : String) :
    dictKeys (dictEnsure m t) =
      if t ∈ dictKeys m then dictKeys m else dictKeys m ++ [t] := by
  induction m with
  | nil => simp [dictEnsure, dictKeys]
  | cons kv rest ih =>
    obtain ⟨k, v⟩ := kv
    by_cases hk : k = t
    · subst hk
      simp [dictEnsure, dictKeys]
    · have hne : t ≠ k := fun h => hk h.symm
      have step : dictEnsure ((k, v) :: rest) t = (k, v) :: dictEnsure rest t := by
        simp [dictEnsure, hk]
      rw [step]
      simp only [dictKeys, List.map_cons] at ih ⊢
      rw [ih]
      by_cases hmem : t ∈ List.map Prod.fst rest <;>
        simp [List.mem_cons, hmem, hne]

theorem dictKeys_processChunk (m : List (String × List String)) (c : GroundingChunk) :
    dictKeys (processChunk m c) =
      match chunkTitle c with
      | none => dictKeys m
      | some t => if t ∈ dictKeys m then dictKeys m else dictKeys m ++ [t] := by
  unfold processChunk chunkTitle
  match c with
  | ⟨none⟩ => rfl
  | ⟨some ⟨none, txt⟩⟩ => rfl
  | ⟨some ⟨some t, none⟩⟩ => simp [dictKeys_dictEnsure]
  | ⟨some ⟨some t, some s⟩⟩ =>
    by_cases hs : s = "" <;> simp [hs, dictKeys_dictEnsure, dictKeys_dictAppend]

theorem nodup_dictKeys_processChunk (m : List (String × List String))
    (c : GroundingChunk) (h : (dictKeys m).Nodup) :
    (dictKeys (processChunk m c)).Nodup := by
  rw [dictKeys_processChunk]
  cases ht : chunkTitle c with
  | none => exact h
  | some t =>
    show (if t ∈ dictKeys m then dictKeys m else dictKeys m ++ [t]).Nodup
    by_cases hmem : t ∈ dictKeys m
    · simpa [hmem] using h
    · rw [if_neg hmem]
      refine List.nodup_append.mpr ⟨h, List.nodup_singleton t, ?_⟩
      intro a ha hat
      rw [List.mem_singleton] at hat
      subst hat
      exact hmem ha

theorem nodup_dictKeys_foldl (cs : List GroundingChunk) :
    ∀ m : List (String × List String), (dictKeys m).Nodup →
      (dictKeys (cs.foldl processChunk m)).Nodup := by
  induction cs with
  | nil => intro m h; simpa using h
  | cons c cs ih =>
    intro m h
    exact ih (processChunk m c) (nodup_dictKeys_processChunk m c h)

theorem mem_dictKeys_iff_lookup (m : List (String × List String)) (t : String) :
    t ∈ dictKeys m ↔ (dictLookup m t).isSome := by
  induction m with
  | nil => simp [dictKeys, dictLookup]
  | cons kv rest ih =>
    obtain ⟨k, v⟩ := kv
    by_cases hk : k = t
    · subst hk
      simp [dictKeys, dictLookup]
    · have hne : t ≠ k := fun h => hk h.symm
      have hstep : dictLookup ((k, v) :: rest) t = dictLookup rest t := by
        simp [dictLookup, hk]
      rw [hstep, ← ih]
      simp [dictKeys, List.mem_cons, hne]

theorem dictLookup_foldl_processChunk (cs : List GroundingChunk) :
    ∀ (m : List (String × List String)) (t : String),
      dictLookup (cs.foldl processChunk m) t =
        match dictLookup m t with
        | some vs => some (vs ++ snippetsFor t cs)
        | none =>
          if t ∈ chunkTitles cs then some (snippetsFor t cs) else none := by
  induction cs with
  | nil =>
    intro m t
    match h : dictLookup m t with
    | some vs => simp [snippetsFor, chunkTitles]
    | none => simp [snippetsFor, chunkTitles]
  | cons c cs ih =>
    intro m t
    have step : dictLookup (processChunk m c) t =
        match chunkTitle c with
        | none => dictLookup m t
        | some u =>
          if t = u then
            some ((dictLookup m t).getD [] ++ (chunkSnippet c).toList)
          else dictLookup m t := by
      unfold processChunk chunkTitle chunkSnippet
      match c with
      | ⟨none⟩ => rfl
      | ⟨some ⟨none, txt⟩⟩ => rfl
      | ⟨some ⟨some u, none⟩⟩ => simp [dictLookup_dictEnsure]
      | ⟨some ⟨some u, some s⟩⟩ =>
        by_cases hs : s = "" <;>
          simp [hs, dictLookup_dictEnsure, dictLookup_dictAppend]
    have titles_cons : chunkTitles (c :: cs) =
        (chunkTitle c).toList ++ chunkTitles cs := by
      match h : chunkTitle c with
      | none => simp [chunkTitles, List.filterMap_cons, h]
      | some u => simp [chunkTitles, List.filterMap_cons, h]
    have snips_cons : snippetsFor t (c :: cs) =
        (if chunkTitle c = some t then (chunkSnippet c).toList else []) ++
          snippetsFor t cs := by
      by_cases h : chunkTitle c = some t
      · simp only [snippetsFor, List.filterMap_cons, if_pos h]
        cases chunkSnippet c <;> simp
      · simp [snippetsFor, List.filterMap_cons, h]
    rw [List.foldl_cons, ih (processChunk m c) t, step]
    match hct : chunkTitle c with
    | none =>
      simp [titles_cons, snips_cons, hct]
    | some u =>
      by_cases htu : t = u
      · subst htu
        match hm : dictLookup m t with
        | some vs =>
          simp [titles_cons, snips_cons, hct, hm]
        | none =>
          simp [titles_cons, snips_cons, hct, hm]
      · have hut : ¬ u = t := fun hh => htu hh.symm
        have hne : ¬ chunkTitle c = some t := by
          rw [hct]
          intro h
          exact htu (Option.some_injective _ h).symm
        match hm : dictLookup m t with
        | some vs =>
          simp [titles_cons, snips_cons, hct, hm, hne, htu, hut]
        | none =>
          by_cases hmem : t ∈ chunkTitles cs <;>
            simp [titles_cons, snips_cons, hct, hm, hne, htu, hut, hmem]

theorem format_eq_foldl (r : GenResponse) :
    format_grounding_chunks r = (effectiveChunks r).foldl processChunk [] := by
  unfold format_grounding_chunks effectiveChunks
  match r with
  | ⟨[]⟩ => rfl
  | ⟨cand :: rest⟩ =>
    match cand with
    | ⟨none⟩ => rfl
    | ⟨some g⟩ =>
      by_cases h : g.grounding_chunks.length = 0
      · have : g.grounding_chunks = [] := List.length_eq_zero.mp h
        simp [this]
      · simp [h]

end Belex

/-- C5: for every response (including the absent/empty grounding cases),
`format_grounding_chunks` yields a mapping with exactly one entry per
distinct chunk title; each title's entry is exactly that title's
contributed stripped snippets in original encounter order; a title none
of whose chunks carries a snippet still appears, with the empty list;
and applying the formatter twice to the same input yields the same
mapping. -/
theorem C5_format_grounding_chunks_spec (r : Belex.GenResponse) :
    (Belex.dictKeys (Belex.format_grounding_chunks r)).Nodup ∧
    (∀ t, t ∈ Belex.dictKeys (Belex.format_grounding_chunks r) ↔
      t ∈ Belex.chunkTitles (Belex.effectiveChunks r)) ∧
    (∀ t, t ∈ Belex.chunkTitles (Belex.effectiveChunks r) →
      Belex.dictLookup (Belex.format_grounding_chunks r) t =
        some (Belex.snippetsFor t (Belex.effectiveChunks r))) ∧
    (∀ t, t ∈ Belex.chunkTitles (Belex.effectiveChunks r) →
      Belex.snippetsFor t (Belex.effectiveChunks r) = [] →
      Belex.dictLookup (Belex.format_grounding_chunks r) t = some []) ∧
    Belex.format_grounding_chunks r = Belex.format_grounding_chunks r := by
  have hlook := fun t => Belex.dictLookup_foldl_processChunk
    (Belex.effectiveChunks r) [] t
  simp only [Belex.dictLookup] at hlook
  refine ⟨?_, ?_, ?_, ?_, rfl⟩
  · rw [Belex.format_eq_foldl]
    exact Belex.nodup_dictKeys_foldl (Belex.effectiveChunks r) [] (by simp [Belex.dictKeys])
  · intro t
    rw [Belex.format_eq_foldl, Belex.mem_dictKeys_iff_lookup, hlook t]
    by_cases h : t ∈ Belex.chunkTitles (Belex.effectiveChunks r) <;> simp [h]
  · intro t ht
    rw [Belex.format_eq_foldl, hlook t]
    simp [ht]
  · intro t ht hempty
    rw [Belex.format_eq_foldl, hlook t]
    simp [ht, hempty]

/-- C5 witness: `C5_format_grounding_chunks_spec` applied to a concrete
response whose chunks exercise a repeated title, a whitespace-padded
snippet and a snippet-less title. -/
theorem C5_format_grounding_chunks_spec_witness :
    Belex.dictLookup
      (Belex.format_grounding_chunks
        ⟨[⟨some ⟨[⟨some ⟨some "A", some " x "⟩⟩,
                 ⟨some ⟨some "B", none⟩⟩,
                 ⟨some ⟨some "A", some "y"⟩⟩]⟩⟩]⟩) "A" = some ["x", "y"] := by
  have h := (C5_format_grounding_chunks_spec
    ⟨[⟨some ⟨[⟨some ⟨some "A", some " x "⟩⟩,
              ⟨some ⟨some "B", none⟩⟩,
              ⟨some ⟨some "A", some "y"⟩⟩]⟩⟩]⟩).2.2.1 "A" (by decide)
  rw [h]
  decide

namespace Belex

/-! ## `list_documents` (app.py lines 90-123, app_unibe.py lines 112-145)

The `while True` loop issues one GET per iteration and reacts only to the
response's status, its optional `documents` array and its optional
`nextPageToken`.  The embedding takes the sequence of responses the
vendor returns to the successive requests; the loop consumes them in
order.  Python's `if not page_token: break` treats both an absent token
and an empty-string token as "no further page". -/

/-- One response of the paginated listing endpoint: either HTTP 200 with
the parsed JSON fields (`documents` absent or present, `nextPageToken`
absent or present), or a non-200 with status and body. -/
inductive PageResponse where
  | ok (documents : Option (List Doc)) (nextPageToken : Option String)
  | err (status : Nat) (body : String)
deriving DecidableEq, Repr

/-- Python falsiness of `data.get("nextPageToken")`: `None` or `""`. -/
def tokenFalsy : Option String → Bool
  | none => true
  | some s => s = ""

/-- Embedding of `list_documents`: the accumulated document list and the
surfaced error (status and body passed to `st.error`), `none` when no
error was shown.  The loop stops at the first falsy token or at the
first non-200 response; a non-200 aborts but keeps what was already
accumulated. -/
def list_documents : List PageResponse → List Doc × Option (Nat × String)
  | [] => ([], none)
  | .ok docs tok :: rest =>
    let here := docs.getD []
    if tokenFalsy tok then
      (here, none)
    else
      let r := list_documents rest
      (here ++ r.1, r.2)
  | .err status body :: _ => ([], some (status, body))

/-- A full-pagination trace: `mids` are the pages that carry a non-falsy
next-page token (each given as its optional `documents` array and its
token string), followed by one final response. -/
def pageTrace (mids : List (Option (List Doc) × String)) (final : PageResponse) :
    List PageResponse :=
  mids.map (fun p => PageResponse.ok p.1 (some p.2)) ++ [final]

/-- The documents of a list of mid pages, concatenated in page order. -/
def midDocs (mids : List (Option (List Doc) × String)) : List Doc :=
  (mids.map (fun p => p.1.getD [])).flatten

theorem list_documents_cons_ok (pd : Option (List Doc)) (tok : Option String)
    (rest : List PageResponse) (h : tokenFalsy tok = false) :
    list_documents (.ok pd tok :: rest) =
      (pd.getD [] ++ (list_documents rest).1, (list_documents rest).2) := by
  simp [list_documents, h]

end Belex

/-- C7: over every pagination trace, `list_documents` follows the
next-page token until it is absent (or empty) and returns the
concatenation of the `documents` arrays of all pages in order — for
zero, one, or many intermediate pages; and when a page answers non-200
the loop aborts, returns exactly the documents accumulated from the
earlier successful pages, and surfaces that status and body as the
user-visible error. -/
theorem C7_list_documents_pagination
    (mids : List (Option (List Belex.Doc) × String))
    (hmids : ∀ p ∈ mids, p.2 ≠ "") :
    (∀ lastDocs : Option (List Belex.Doc), ∀ lastTok : Option String,
      Belex.tokenFalsy lastTok = true →
      Belex.list_documents (Belex.pageTrace mids (.ok lastDocs lastTok)) =
        (Belex.midDocs mids ++ lastDocs.getD [], none)) ∧
    (∀ status : Nat, ∀ body : String,
      Belex.list_documents (Belex.pageTrace mids (.err status body)) =
        (Belex.midDocs mids, some (status, body))) := by
  induction mids with
  | nil =>
    constructor
    · intro lastDocs lastTok hf
      simp [Belex.pageTrace, Belex.midDocs, Belex.list_documents, hf]
    · intro status body
      simp [Belex.pageTrace, Belex.midDocs, Belex.list_documents]
  | cons p mids ih =>
    obtain ⟨pd, pt⟩ := p
    have hpt : pt ≠ "" := hmids (pd, pt) (List.mem_cons_self _ _)
    have hrest : ∀ q ∈ mids, q.2 ≠ "" := fun q hq => hmids q (List.mem_cons_of_mem _ hq)
    have hnf : Belex.tokenFalsy (some pt) = false := by
      simp [Belex.tokenFalsy, hpt]
    have htrace : ∀ final : Belex.PageResponse,
        Belex.pageTrace ((pd, pt) :: mids) final =
          .ok pd (some pt) :: Belex.pageTrace mids final := by
      intro final
      simp [Belex.pageTrace]
    constructor
    · intro lastDocs lastTok hf
      have hres := (ih hrest).1 lastDocs lastTok hf
      rw [htrace, Belex.list_documents_cons_ok pd (some pt) _ hnf, hres]
      simp [Belex.midDocs]
    · intro status body
      have hres := (ih hrest).2 status body
      rw [htrace, Belex.list_documents_cons_ok pd (some pt) _ hnf, hres]
      simp [Belex.midDocs]

/-- C7 witness: `C7_list_documents_pagination` applied to a concrete
two-mid-page trace, once ending in a token-less page and once ending in
an HTTP 500. -/
theorem C7_list_documents_pagination_witness :
    Belex.list_documents
      (Belex.pageTrace [(some [⟨"d1", none⟩], "tokA"), (none, "tokB")]
        (.ok (some [⟨"d2", none⟩]) none)) =
      (Belex.midDocs [(some [⟨"d1", none⟩], "tokA"), (none, "tokB")] ++
        [⟨"d2", none⟩], none) ∧
    Belex.list_documents
      (Belex.pageTrace [(some [⟨"d1", none⟩], "tokA"), (none, "tokB")]
        (.err 500 "boom")) =
      (Belex.midDocs [(some [⟨"d1", none⟩], "tokA"), (none, "tokB")],
        some (500, "boom")) := by
  have h := C7_list_documents_pagination
    [(some [⟨"d1", none⟩], "tokA"), (none, "tokB")] (by decide)
  exact ⟨h.1 (some [⟨"d2", none⟩]) none (by decide), h.2 500 "boom"⟩

namespace Belex

/-! ## `extract_bsg_number` (app.py lines 32-37, app_unibe.py lines 54-59)

Python: `re.search(r'BSG[\\s_]?([\\d.]+(?:-\\d+)?)', title)`, returning
`group(1)` of the leftmost match, else `None`.

The regex engine scans left to right for the first position where the
whole pattern matches.  At a candidate position the literal `BSG` must
match, then `[\\s_]?` consumes one whitespace-or-underscore character
when present (if it consumed one and the rest fails, backtracking to the
empty alternative also fails, because a separator character is never a
digit or dot), then `[\\d.]+` greedily takes the maximal nonempty run of
digits and dots, and `(?:-\\d+)?` greedily appends a dash plus a maximal
nonempty digit run when one follows.  The character classes `\\s` and
`\\d` are modelled by their ASCII ranges (the registry numbers and
separators the apps handle); `String.data` exposes the code points the
regex engine walks. -/

/-- One separator character admitted by `[\\s_]?`. -/
def sepChar (c : Char) : Bool := isPyStripSpace c || c = '_'

/-- One character of the class `[\\d.]`. -/
def isDigitDot (c : Char) : Bool := c.isDigit || c = '.'

/-- The greedy capture `([\\d.]+(?:-\\d+)?)` applied at a fixed
position: a maximal nonempty run of digits/dots, then — when a dash
followed by at least one digit comes next — the dash and the maximal
digit run after it. -/
def matchCapture (cs2 : List Char) : Option (List Char) :=
  let run := cs2.takeWhile isDigitDot
  let rest := cs2.dropWhile isDigitDot
  if run = [] then none
  else
    match rest with
    | [] => some run
    | c :: r2 =>
      if c = '-' then
        let ds := r2.takeWhile Char.isDigit
        if ds = [] then some run else some (run ++ '-' :: ds)
      else some run

/-- The part of the pattern after the literal `BSG`, applied at a fixed
position: `[\\s_]?` consumes one separator character when the next
character is one (backtracking to the empty alternative cannot help,
since a separator is never a digit or dot), then the capture runs. -/
def matchTail (cs : List Char) : Option (List Char) :=
  match cs with
  | [] => matchCapture []
  | c :: rest => if sepChar c then matchCapture rest else matchCapture (c :: rest)

/-- The left-to-right scan of `re.search`: try the pattern at each
position, return the first capture. -/
def searchFrom : List Char → Option (List Char)
  | [] => none
  | c :: rest =>
    if c = 'B' ∧ rest.take 2 = ['S', 'G'] then
      match matchTail (rest.drop 2) with
      | some v => some v
      | none => searchFrom rest
    else searchFrom rest

/-- Embedding of `extract_bsg_number`. -/
def extract_bsg_number (title : String) : Option String :=
  (searchFrom title.data).map fun v => String.mk v

/-- The grouping key `bsg_nr.split('.')[0]` used by the Rechtsbuch
grouping in `main`: element 0 of a `split` on dots is the prefix of the
string up to (excluding) its first dot — the whole string when it has no
dot, and the empty string when it starts with a dot (Python `split`
always yields a nonempty list, so the `[0]` never fails). -/
def bookKey (bsg : String) : String :=
  String.mk (bsg.data.takeWhile fun c => c != '.')

/-! ## Rechtsbuch grouping and sorting (app.py lines 508-534,
app_unibe.py lines 737-764)

`rechtsbuecher` is a `defaultdict(list)` filled in document order, so its
keys enumerate in first-insertion order; `sorted(...)` is Python's
stable sort by the key function `lambda x: (int(x) if x.isdigit() else
999999, x)`; the per-group sort key is `lambda x: x[0]`, the full
registry number string.  Tuple and string comparison are lexicographic
(strings by code point), embedded below; the stable sort is realised as
a stable insertion sort, which computes the same list as any stable sort
for a total preorder. -/

/-- Python string `<=` on code-point sequences. -/
def listLe : List Char → List Char → Bool
  | [], _ => true
  | _ :: _, [] => false
  | a :: as, b :: bs =>
    if a.toNat < b.toNat then true
    else if a.toNat = b.toNat then listLe as bs
    else false

/-- Python `x.isdigit()` for the ASCII strings at hand: nonempty and all
digits. -/
def pyIsDigitStr (s : String) : Bool := s ≠ "" && s.data.all Char.isDigit

/-- Python `int(x)` on an all-digit string. -/
def pyIntOfDigits (s : String) : Nat :=
  s.data.foldl (fun n c => 10 * n + (c.toNat - 48)) 0

/-- The sort key `(int(x) if x.isdigit() else 999999, x)`. -/
def rechtsbuchSortKey (x : String) : Nat × String :=
  (if pyIsDigitStr x then pyIntOfDigits x else 999999, x)

/-- Lexicographic comparison of `(Nat, str)` keys, as Python compares
tuples. -/
def keyPairLe (a b : Nat × String) : Bool :=
  if a.1 < b.1 then true
  else if a.1 = b.1 then listLe a.2.data b.2.data
  else false

/-- The comparison realising `sorted(rechtsbuecher.keys(), key=...)`. -/
def rbLe (a b : String) : Bool := keyPairLe (rechtsbuchSortKey a) (rechtsbuchSortKey b)

/-- The comparison realising `sorted(docs_list, key=lambda x: x[0])`. -/
def bsgLe (a b : String × Doc) : Bool := listLe a.1.data b.1.data

/-- Stable insertion of `a` into a sorted list: `a` goes in front of the
first element it compares `le` to, hence behind every earlier-listed
equal element. -/
def insertLe {α : Type} (le : α → α → Bool) (a : α) : List α → List α
  | [] => [a]
  | b :: bs => if le a b then a :: b :: bs else b :: insertLe le a bs

/-- Stable insertion sort: the result of Python's stable `sorted` under
the total preorder `le`. -/
def pySorted {α : Type} (le : α → α → Bool) : List α → List α
  | [] => []
  | a :: as => insertLe le a (pySorted le as)

/-- `rechtsbuecher[rechtsbuch].append((bsg_nr, doc))` on the
insertion-ordered dict of groups. -/
def addToGroups (gs : List (String × List (String × Doc))) (k : String)
    (v : String × Doc) : List (String × List (String × Doc)) :=
  match gs with
  | [] => [(k, [v])]
  | (k2, vs) :: rest =>
    if k2 = k then (k2, vs ++ [v]) :: rest else (k2, vs) :: addToGroups rest k v

/-- The loop body of the grouping pass: extract the registry number from
the display name (default `'Unbekannt'`), file the document under its
book key, or into the ungrouped bucket. -/
def groupStep (acc : List (String × List (String × Doc)) × List Doc) (doc : Doc) :
    List (String × List (String × Doc)) × List Doc :=
  let display := doc.displayName.getD "Unbekannt"
  match extract_bsg_number display with
  | some bsg => (addToGroups acc.1 (bookKey bsg) (bsg, doc), acc.2)
  | none => (acc.1, acc.2 ++ [doc])

/-- The grouping pass over the loaded documents: the Rechtsbuch groups
in key-first-seen order, and `documents_without_bsg`. -/
def groupByRechtsbuch (docs : List Doc) :
    List (String × List (String × Doc)) × List Doc :=
  docs.foldl groupStep ([], [])

/-- `sorted_rechtsbuecher`: the group keys under the Python sort key. -/
def sortedRechtsbuecher (docs : List Doc) : List String :=
  pySorted rbLe ((groupByRechtsbuch docs).1.map Prod.fst)

/-- Lookup of one book group. -/
def lookupGroup (gs : List (String × List (String × Doc))) (k : String) :
    List (String × Doc) :=
  match gs with
  | [] => []
  | (k2, vs) :: rest => if k2 = k then vs else lookupGroup rest k

/-- The display order within one book group:
`sorted(docs_list, key=lambda x: x[0])`. -/
def sortedGroupFor (docs : List Doc) (k : String) : List (String × Doc) :=
  pySorted bsgLe (lookupGroup (groupByRechtsbuch docs).1 k)

end Belex

/-- C10: on a title that contains the marker but no digits after it, the
matched character class admits dots without requiring a digit:
`extract_bsg_number "BSG."` returns the non-empty all-dots string `"."`
rather than no value, and the book-number grouping key computed from it
is the empty string. -/
theorem C10_all_dots_extraction :
    Belex.extract_bsg_number "BSG." = some "." ∧
    ("." : String) ≠ "" ∧
    (∀ c ∈ ("." : String).data, c = '.') ∧
    Belex.bookKey "." = "" := by
  refine ⟨rfl, by decide, ?_, by decide⟩
  intro c hc
  simpa using hc

namespace Belex

theorem listLe_total (as bs : List Char) :
    listLe as bs = true ∨ listLe bs as = true := by
  induction as generalizing bs with
  | nil => left; rfl
  | cons a as ih =>
    cases bs with
    | nil => right; rfl
    | cons b bs =>
      rcases Nat.lt_trichotomy a.toNat b.toNat with h | h | h
      · left; simp [listLe, h]
      · have hn : ¬ a.toNat < b.toNat := by omega
        have hn2 : ¬ b.toNat < a.toNat := by omega
        rcases ih bs with h2 | h2
        · left; simp [listLe, hn, h, h2]
        · right; simp [listLe, hn2, h.symm, h2]
      · right; simp [listLe, h]

theorem listLe_trans (as bs cs : List Char)
    (h1 : listLe as bs = true) (h2 : listLe bs cs = true) :
    listLe as cs = true := by
  induction as generalizing bs cs with
  | nil => rfl
  | cons a as ih =>
    cases bs with
    | nil => simp [listLe] at h1
    | cons b bs =>
      cases cs with
      | nil => simp [listLe] at h2
      | cons c cs =>
        by_cases hab : a.toNat < b.toNat
        · by_cases hbc : b.toNat < c.toNat
          · have : a.toNat < c.toNat := Nat.lt_trans hab hbc
            simp [listLe, this]
          · by_cases hbc2 : b.toNat = c.toNat
            · have : a.toNat < c.toNat := hbc2 ▸ hab
              simp [listLe, this]
            · simp [listLe, hbc, hbc2] at h2
        · by_cases hab2 : a.toNat = b.toNat
          · have h1a : listLe as bs = true := by
              simpa [listLe, hab, hab2] using h1
            by_cases hbc : b.toNat < c.toNat
            · have : a.toNat < c.toNat := hab2 ▸ hbc
              simp [listLe, this]
            · by_cases hbc2 : b.toNat = c.toNat
              · have h2a : listLe bs cs = true := by
                  simpa [listLe, hbc, hbc2] using h2
                have hac : a.toNat = c.toNat := hab2.trans hbc2
                have hn : ¬ a.toNat < c.toNat := by omega
                simp [listLe, hn, hac, ih bs cs h1a h2a]
              · simp [listLe, hbc, hbc2] at h2
          · simp [listLe, hab, hab2] at h1

theorem keyPairLe_true_iff (a b : Nat × String) :
    keyPairLe a b = true ↔
      a.1 < b.1 ∨ (a.1 = b.1 ∧ listLe a.2.data b.2.data = true) := by
  unfold keyPairLe
  by_cases h1 : a.1 < b.1
  · simp [h1]
  · by_cases h2 : a.1 = b.1
    · simp [h1, h2]
    · simp [h1, h2]

theorem keyPairLe_total (a b : Nat × String) :
    keyPairLe a b = true ∨ keyPairLe b a = true := by
  rcases Nat.lt_trichotomy a.1 b.1 with h | h | h
  · left; rw [keyPairLe_true_iff]; exact Or.inl h
  · rcases listLe_total a.2.data b.2.data with h2 | h2
    · left; rw [keyPairLe_true_iff]; exact Or.inr ⟨h, h2⟩
    · right; rw [keyPairLe_true_iff]; exact Or.inr ⟨h.symm, h2⟩
  · right; rw [keyPairLe_true_iff]; exact Or.inl h

theorem keyPairLe_trans (a b c : Nat × String)
    (h1 : keyPairLe a b = true) (h2 : keyPairLe b c = true) :
    keyPairLe a c = true := by
  rw [keyPairLe_true_iff] at h1 h2 ⊢
  rcases h1 with h1 | ⟨h1e, h1l⟩
  · rcases h2 with h2 | ⟨h2e, h2l⟩
    · exact Or.inl (Nat.lt_trans h1 h2)
    · exact Or.inl (h2e ▸ h1)
  · rcases h2 with h2 | ⟨h2e, h2l⟩
    · exact Or.inl (h1e ▸ h2)
    · exact Or.inr ⟨h1e.trans h2e, listLe_trans _ _ _ h1l h2l⟩

theorem rbLe_total (a b : String) : rbLe a b = true ∨ rbLe b a = true :=
  keyPairLe_total _ _

theorem rbLe_trans (a b c : String)
    (h1 : rbLe a b = true) (h2 : rbLe b c = true) : rbLe a c = true :=
  keyPairLe_trans _ _ _ h1 h2

theorem bsgLe_total (a b : String × Doc) : bsgLe a b = true ∨ bsgLe b a = true :=
  listLe_total _ _

theorem bsgLe_trans (a b c : String × Doc)
    (h1 : bsgLe a b = true) (h2 : bsgLe b c = true) : bsgLe a c = true :=
  listLe_trans _ _ _ h1 h2

theorem insertLe_perm {α : Type} (le : α → α → Bool) (a : α) (l : List α) :
    (insertLe le a l).Perm (a :: l) := by
  induction l with
  | nil => simp [insertLe]
  | cons b bs ih =>
    by_cases hab : le a b = true
    · simp [insertLe, hab]
    · rw [show insertLe le a (b :: bs) = b :: insertLe le a bs from by
        simp [insertLe, hab]]
      exact (ih.cons b).trans (List.Perm.swap a b bs)

theorem pySorted_perm {α : Type} (le : α → α → Bool) (l : List α) :
    (pySorted le l).Perm l := by
  induction l with
  | nil => simp [pySorted]
  | cons a as ih =>
    exact (insertLe_perm le a (pySorted le as)).trans (ih.cons a)

theorem pairwise_insertLe {α : Type} (le : α → α → Bool)
    (htot : ∀ a b, le a b = true ∨ le b a = true)
    (htrans : ∀ a b c, le a b = true → le b c = true → le a c = true)
    (a : α) (l : List α) (h : l.Pairwise fun x y => le x y = true) :
    (insertLe le a l).Pairwise fun x y => le x y = true := by
  induction l with
  | nil => simp [insertLe]
  | cons b bs ih =>
    rw [List.pairwise_cons] at h
    obtain ⟨hb, hbs⟩ := h
    by_cases hab : le a b = true
    · rw [show insertLe le a (b :: bs) = a :: b :: bs from by simp [insertLe, hab]]
      refine List.pairwise_cons.mpr ⟨?_, List.pairwise_cons.mpr ⟨hb, hbs⟩⟩
      intro x hx
      rcases List.mem_cons.mp hx with h1 | h2
      · subst h1; exact hab
      · exact htrans a b x hab (hb x h2)
    · have hba : le b a = true := (htot a b).resolve_left hab
      rw [show insertLe le a (b :: bs) = b :: insertLe le a bs from by
        simp [insertLe, hab]]
      refine List.pairwise_cons.mpr ⟨?_, ih hbs⟩
      intro x hx
      have hx2 := (insertLe_perm le a bs).mem_iff.mp hx
      rcases List.mem_cons.mp hx2 with h1 | h2
      · subst h1; exact hba
      · exact hb x h2

theorem pairwise_pySorted {α : Type} (le : α → α → Bool)
    (htot : ∀ a b, le a b = true ∨ le b a = true)
    (htrans : ∀ a b c, le a b = true → le b c = true → le a c = true)
    (l : List α) :
    (pySorted le l).Pairwise fun x y => le x y = true := by
  induction l with
  | nil => simp [pySorted]
  | cons a as ih =>
    exact pairwise_insertLe le htot htrans a (pySorted le as) ih

theorem rbLe_elim (a b : String) (h : rbLe a b = true) :
    (pyIsDigitStr a = true → pyIsDigitStr b = true →
      pyIntOfDigits a ≤ pyIntOfDigits b) ∧
    (pyIsDigitStr a = false → pyIsDigitStr b = false →
      listLe a.data b.data = true) ∧
    (pyIsDigitStr a = false → pyIsDigitStr b = true →
      999999 ≤ pyIntOfDigits b) ∧
    (pyIsDigitStr a = true → pyIsDigitStr b = false →
      pyIntOfDigits a ≤ 999999) ∧
    (pyIsDigitStr a = false → pyIsDigitStr b = true →
      pyIntOfDigits b = 999999 → listLe a.data b.data = true) ∧
    (pyIsDigitStr a = true → pyIsDigitStr b = false →
      pyIntOfDigits a = 999999 → listLe a.data b.data = true) := by
  rw [rbLe, keyPairLe_true_iff] at h
  refine ⟨?_, ?_, ?_, ?_, ?_, ?_⟩
  · intro ha hb
    simp only [rechtsbuchSortKey, ha, hb, if_true, if_false,
      Bool.false_eq_true] at h
    rcases h with h | ⟨h, _⟩
    · exact Nat.le_of_lt h
    · exact Nat.le_of_eq h
  · intro ha hb
    simp only [rechtsbuchSortKey, ha, hb, if_true, if_false,
      Bool.false_eq_true] at h
    rcases h with h | ⟨_, h⟩
    · exact absurd h (by omega)
    · exact h
  · intro ha hb
    simp only [rechtsbuchSortKey, ha, hb, if_true, if_false,
      Bool.false_eq_true] at h
    rcases h with h | ⟨h, _⟩
    · exact Nat.le_of_lt h
    · exact Nat.le_of_eq h
  · intro ha hb
    simp only [rechtsbuchSortKey, ha, hb, if_true, if_false,
      Bool.false_eq_true] at h
    rcases h with h | ⟨h, _⟩
    · exact Nat.le_of_lt h
    · exact Nat.le_of_eq h
  · intro ha hb hv
    simp only [rechtsbuchSortKey, ha, hb, if_true, if_false,
      Bool.false_eq_true] at h
    rw [hv] at h
    rcases h with h | ⟨_, h⟩
    · exact absurd h (by omega)
    · exact h
  · intro ha hb hv
    simp only [rechtsbuchSortKey, ha, hb, if_true, if_false,
      Bool.false_eq_true] at h
    rw [hv] at h
    rcases h with h | ⟨_, h⟩
    · exact absurd h (by omega)
    · exact h

end Belex

/-- C3 counterexample: the claim puts every non-all-digit book key after
every all-digit key, but the sort key maps non-digit keys to the tuple
`(999999, key)`, so the all-digit key `"1000000"` (whose numeric value
exceeds 999999) sorts *after* the non-digit key `"999999-1"`: with both
groups present the display order lists the non-digit key first. -/
theorem C3_numeric_key_after_nonnumeric :
    Belex.sortedRechtsbuecher
      [⟨"docs/1", some "BSG 1000000.1"⟩, ⟨"docs/2", some "BSG 999999-1"⟩] =
      ["999999-1", "1000000"] ∧
    Belex.pyIsDigitStr "1000000" = true ∧
    Belex.pyIsDigitStr "999999-1" = false := by
  refine ⟨by decide, by decide, by decide⟩

/-- C3 amended: the displayed book-group key order is exactly the
Python sort order under the key `(int(x) if x.isdigit() else 999999, x)`
— a permutation of the group keys that is pairwise ordered by that key.
Consequently, for any two displayed keys in display order: all-digit
keys appear in ascending numeric order among themselves; non-all-digit
keys appear in ascending lexical order among themselves; a non-all-digit
key precedes an all-digit key only when the latter's numeric value is at
least 999999, and follows one only when that value is at most 999999;
and when that value is exactly 999999 (the sentinel the sort key assigns
to every non-digit key) the relative order in either direction is the
lexical order of the two key strings — rather than all non-digit keys
coming last, as claimed.  Within one book group the documents are
ordered lexically by their full registry number, as claimed. -/
theorem C3_rechtsbuch_order_amended (docs : List Belex.Doc) :
    (Belex.sortedRechtsbuecher docs).Pairwise
      (fun a b => Belex.rbLe a b = true) ∧
    (Belex.sortedRechtsbuecher docs).Perm
      ((Belex.groupByRechtsbuch docs).1.map Prod.fst) ∧
    (Belex.sortedRechtsbuecher docs).Pairwise
      (fun a b => Belex.pyIsDigitStr a = true → Belex.pyIsDigitStr b = true →
        Belex.pyIntOfDigits a ≤ Belex.pyIntOfDigits b) ∧
    (Belex.sortedRechtsbuecher docs).Pairwise
      (fun a b => Belex.pyIsDigitStr a = false → Belex.pyIsDigitStr b = false →
        Belex.listLe a.data b.data = true) ∧
    (Belex.sortedRechtsbuecher docs).Pairwise
      (fun a b => Belex.pyIsDigitStr a = false → Belex.pyIsDigitStr b = true →
        999999 ≤ Belex.pyIntOfDigits b) ∧
    (Belex.sortedRechtsbuecher docs).Pairwise
      (fun a b => Belex.pyIsDigitStr a = true → Belex.pyIsDigitStr b = false →
        Belex.pyIntOfDigits a ≤ 999999) ∧
    (Belex.sortedRechtsbuecher docs).Pairwise
      (fun a b => Belex.pyIsDigitStr a = false → Belex.pyIsDigitStr b = true →
        Belex.pyIntOfDigits b = 999999 → Belex.listLe a.data b.data = true) ∧
    (Belex.sortedRechtsbuecher docs).Pairwise
      (fun a b => Belex.pyIsDigitStr a = true → Belex.pyIsDigitStr b = false →
        Belex.pyIntOfDigits a = 999999 → Belex.listLe a.data b.data = true) ∧
    (∀ k : String, (Belex.sortedGroupFor docs k).Pairwise
      (fun x y => Belex.listLe x.1.data y.1.data = true)) ∧
    (∀ k : String, (Belex.sortedGroupFor docs k).Perm
      (Belex.lookupGroup (Belex.groupByRechtsbuch docs).1 k)) := by
  have hpw := Belex.pairwise_pySorted Belex.rbLe Belex.rbLe_total Belex.rbLe_trans
    ((Belex.groupByRechtsbuch docs).1.map Prod.fst)
  refine ⟨hpw, Belex.pySorted_perm _ _, ?_, ?_, ?_, ?_, ?_, ?_, ?_, ?_⟩
  · exact hpw.imp fun hab => (Belex.rbLe_elim _ _ hab).1
  · exact hpw.imp fun hab => (Belex.rbLe_elim _ _ hab).2.1
  · exact hpw.imp fun hab => (Belex.rbLe_elim _ _ hab).2.2.1
  · exact hpw.imp fun hab => (Belex.rbLe_elim _ _ hab).2.2.2.1
  · exact hpw.imp fun hab => (Belex.rbLe_elim _ _ hab).2.2.2.2.1
  · exact hpw.imp fun hab => (Belex.rbLe_elim _ _ hab).2.2.2.2.2
  · intro k
    exact Belex.pairwise_pySorted Belex.bsgLe Belex.bsgLe_total Belex.bsgLe_trans _
  · intro k
    exact Belex.pySorted_perm _ _

namespace Belex

/-! ## Declarative reading of the registry pattern (for C4)

The claim describes the pattern in words: marker `BSG`, optional single
whitespace/underscore, then digits-and-dots optionally followed by
dash-and-digits, captured at the first (leftmost) match.  The predicates
below transcribe that sentence — a decomposition of the title with the
greediness and leftmostness side conditions of `re.search` — and the
equivalence with the executable scanner is proved, so the scanner
returns exactly the claimed segment. -/

/-- The capture decomposes `cs2` as `a ++ b ++ rest`, where `a` is the
nonempty digits-and-dots run and `b` the optional dash-and-digits
suffix; maximality of each greedy piece is expressed by conditions on
the first character of what follows. -/
def CaptureMatch (cs2 v : List Char) : Prop :=
  ∃ a b rest, cs2 = a ++ b ++ rest ∧ v = a ++ b ∧
    a ≠ [] ∧ (∀ c ∈ a, isDigitDot c = true) ∧
    ((b = [] ∧
      (∀ c r2, rest = c :: r2 → isDigitDot c = false) ∧
      (∀ d r2, rest = '-' :: d :: r2 → d.isDigit = false)) ∨
     (∃ ds, b = '-' :: ds ∧ ds ≠ [] ∧ (∀ c ∈ ds, c.isDigit = true) ∧
      (∀ c r2, rest = c :: r2 → c.isDigit = false)))

/-- The pattern part after the marker: an optional single separator
character, then the capture. -/
def TailMatch (tail v : List Char) : Prop :=
  ∃ sep cs2, tail = sep ++ cs2 ∧
    (sep = [] ∨ ∃ c, sepChar c = true ∧ sep = [c]) ∧
    CaptureMatch cs2 v

/-- The whole pattern matches at position `i` of `cs` with capture `v`. -/
def MatchAt (cs : List Char) (i : Nat) (v : List Char) : Prop :=
  ∃ pre tail, cs = pre ++ 'B' :: 'S' :: 'G' :: tail ∧
    pre.length = i ∧ TailMatch tail v

def HasMatchAt (cs : List Char) (i : Nat) : Prop := ∃ v, MatchAt cs i v

/-- Leftmost-match semantics of `re.search`: a match at some position
with no match at any earlier position. -/
def FirstMatch (cs v : List Char) : Prop :=
  ∃ i, MatchAt cs i v ∧ ∀ j, j < i → ¬ HasMatchAt cs j

theorem takeWhile_all {p : Char → Bool} :
    ∀ l : List Char, ∀ c ∈ l.takeWhile p, p c = true := by
  intro l
  induction l with
  | nil => intro c hc; simp [List.takeWhile] at hc
  | cons a as ih =>
    intro c hc
    by_cases ha : p a
    · rw [List.takeWhile_cons, if_pos ha] at hc
      rcases List.mem_cons.mp hc with h | h
      · subst h; exact ha
      · exact ih c h
    · rw [List.takeWhile_cons, if_neg ha] at hc
      simp at hc

theorem dropWhile_head_false {p : Char → Bool} :
    ∀ l : List Char, ∀ c : Char, ∀ r : List Char,
      l.dropWhile p = c :: r → p c = false := by
  intro l
  induction l with
  | nil => intro c r h; simp [List.dropWhile] at h
  | cons a as ih =>
    intro c r h
    by_cases ha : p a
    · rw [List.dropWhile_cons, if_pos ha] at h
      exact ih c r h
    · rw [List.dropWhile_cons, if_neg ha] at h
      obtain ⟨h1, _⟩ := List.cons.injEq .. ▸ h
      cases h
      simpa using ha

theorem takeWhile_eq_nil_cases {p : Char → Bool} (l : List Char)
    (h : l.takeWhile p = []) :
    l = [] ∨ ∃ c r, l = c :: r ∧ p c = false := by
  cases l with
  | nil => exact Or.inl rfl
  | cons a as =>
    by_cases ha : p a
    · rw [List.takeWhile_cons, if_pos ha] at h
      simp at h
    · exact Or.inr ⟨a, as, rfl, by simpa using ha⟩

theorem takeWhile_append_of_all {p : Char → Bool} (a l : List Char)
    (ha : ∀ c ∈ a, p c = true)
    (hl : l = [] ∨ ∃ c r, l = c :: r ∧ p c = false) :
    (a ++ l).takeWhile p = a ∧ (a ++ l).dropWhile p = l := by
  induction a with
  | nil =>
    simp only [List.nil_append]
    rcases hl with h | ⟨c, r, h, hc⟩
    · subst h; simp
    · subst h
      rw [List.takeWhile_cons, if_neg (by simp [hc]),
        List.dropWhile_cons, if_neg (by simp [hc])]
      exact ⟨rfl, rfl⟩
  | cons x xs ih =>
    have hx : p x = true := ha x (List.mem_cons_self x xs)
    have hxs : ∀ c ∈ xs, p c = true := fun c hc => ha c (List.mem_cons_of_mem x hc)
    obtain ⟨ihT, ihD⟩ := ih hxs
    constructor
    · rw [List.cons_append, List.takeWhile_cons, if_pos hx, ihT]
    · rw [List.cons_append, List.dropWhile_cons, if_pos hx, ihD]

theorem sepChar_cases (c : Char) (h : sepChar c = true) :
    c = ' ' ∨ c = '\t' ∨ c = '\n' ∨ c = '\r' ∨
      c = '\x0b' ∨ c = '\x0c' ∨ c = '_' := by
  simp only [sepChar, isPyStripSpace, Bool.or_eq_true, decide_eq_true_eq] at h
  tauto

theorem sep_not_digitdot (c : Char) (h : sepChar c = true) :
    isDigitDot c = false := by
  rcases sepChar_cases c h with h | h | h | h | h | h | h <;> subst h <;> decide

end Belex

namespace Belex

theorem matchCapture_eq_some_iff (cs2 v : List Char) :
    matchCapture cs2 = some v ↔ CaptureMatch cs2 v := by
  constructor
  · intro h
    by_cases hr : cs2.takeWhile isDigitDot = []
    · simp [matchCapture, hr] at h
    · have hcs2 := List.takeWhile_append_dropWhile (p := isDigitDot) (l := cs2)
      have hall := takeWhile_all (p := isDigitDot) cs2
      cases hd : cs2.dropWhile isDigitDot with
      | nil =>
        have hv : cs2.takeWhile isDigitDot = v := by
          have heq : matchCapture cs2 = some (cs2.takeWhile isDigitDot) := by
            simp [matchCapture, hr, hd]
          rw [heq] at h
          exact Option.some_injective _ h
        refine ⟨cs2.takeWhile isDigitDot, [], [], ?_, by simp [hv], hr, hall,
          Or.inl ⟨rfl, ?_, ?_⟩⟩
        · simp only [List.append_nil]
          rw [hd] at hcs2
          simpa using hcs2.symm
        · intro c r2 hc
          simp at hc
        · intro d r2 hc
          simp at hc
      | cons c r2 =>
        by_cases hdash : c = '-'
        · subst hdash
          by_cases hds : r2.takeWhile Char.isDigit = []
          · have hv : cs2.takeWhile isDigitDot = v := by
              have heq : matchCapture cs2 = some (cs2.takeWhile isDigitDot) := by
                simp [matchCapture, hr, hd, hds]
              rw [heq] at h
              exact Option.some_injective _ h
            refine ⟨cs2.takeWhile isDigitDot, [], '-' :: r2, ?_, by simp [hv],
              hr, hall, Or.inl ⟨rfl, ?_, ?_⟩⟩
            · simp only [List.append_nil]
              rw [← hd]
              exact hcs2.symm
            · intro e r3 he
              obtain ⟨he1, _⟩ := List.cons.injEq .. ▸ he
              subst he1
              decide
            · intro d r3 he
              obtain ⟨_, he2⟩ := List.cons.injEq .. ▸ he
              rcases takeWhile_eq_nil_cases r2 hds with h0 | ⟨e, r4, h0, hpe⟩
              · rw [h0] at he2
                exact absurd he2.symm (List.cons_ne_nil d r3)
              · rw [h0] at he2
                obtain ⟨hde, _⟩ := List.cons.injEq .. ▸ he2
                rw [hde] at hpe
                exact hpe
          · have hv : cs2.takeWhile isDigitDot ++ '-' :: r2.takeWhile Char.isDigit = v := by
              have heq : matchCapture cs2 =
                  some (cs2.takeWhile isDigitDot ++ '-' :: r2.takeWhile Char.isDigit) := by
                simp [matchCapture, hr, hd, hds]
              rw [heq] at h
              exact Option.some_injective _ h
            have hr2 := List.takeWhile_append_dropWhile (p := Char.isDigit) (l := r2)
            refine ⟨cs2.takeWhile isDigitDot, '-' :: r2.takeWhile Char.isDigit,
              r2.dropWhile Char.isDigit, ?_, by simp [hv], hr, hall,
              Or.inr ⟨r2.takeWhile Char.isDigit, rfl, hds,
                takeWhile_all (p := Char.isDigit) r2, ?_⟩⟩
            · calc cs2 = cs2.takeWhile isDigitDot ++ cs2.dropWhile isDigitDot := hcs2.symm
                _ = cs2.takeWhile isDigitDot ++ '-' :: r2 := by rw [hd]
                _ = cs2.takeWhile isDigitDot ++ '-' ::
                      (r2.takeWhile Char.isDigit ++ r2.dropWhile Char.isDigit) := by rw [hr2]
                _ = cs2.takeWhile isDigitDot ++ '-' :: r2.takeWhile Char.isDigit ++
                      r2.dropWhile Char.isDigit := by simp
            · intro e r3 he
              exact dropWhile_head_false r2 e r3 he
        · have hv : cs2.takeWhile isDigitDot = v := by
            have heq : matchCapture cs2 = some (cs2.takeWhile isDigitDot) := by
              simp [matchCapture, hr, hd, hdash]
            rw [heq] at h
            exact Option.some_injective _ h
          refine ⟨cs2.takeWhile isDigitDot, [], c :: r2, ?_, by simp [hv],
            hr, hall, Or.inl ⟨rfl, ?_, ?_⟩⟩
          · simp only [List.append_nil]
            rw [← hd]
            exact hcs2.symm
          · intro e r3 he
            obtain ⟨he1, _⟩ := List.cons.injEq .. ▸ he
            subst he1
            exact dropWhile_head_false cs2 c r2 hd
          · intro d r3 he
            obtain ⟨he1, _⟩ := List.cons.injEq .. ▸ he
            exact absurd he1 hdash
  · rintro ⟨a, b, rest, hcs2, hv, hane, haall, hb⟩
    have hsplit : (a ++ (b ++ rest)).takeWhile isDigitDot = a ∧
        (a ++ (b ++ rest)).dropWhile isDigitDot = b ++ rest := by
      refine takeWhile_append_of_all a (b ++ rest) haall ?_
      rcases hb with ⟨hbnil, hrest1, _⟩ | ⟨ds, hbds, _, _, _⟩
      · subst hbnil
        rw [List.nil_append]
        cases rest with
        | nil => exact Or.inl rfl
        | cons e r3 => exact Or.inr ⟨e, r3, rfl, hrest1 e r3 rfl⟩
      · subst hbds
        exact Or.inr ⟨'-', ds ++ rest, by simp, by decide⟩
    rw [List.append_assoc] at hcs2
    subst hcs2
    obtain ⟨hT, hD⟩ := hsplit
    rcases hb with ⟨hbnil, hrest1, hrest2⟩ | ⟨ds, hbds, hds, hdsall, hrestd⟩
    · subst hbnil
      rw [List.append_nil] at hv
      cases rest with
      | nil =>
        simp only [List.nil_append, List.append_nil] at hT hD ⊢
        simp [matchCapture, hT, hD, hane, hv]
      | cons e r3 =>
        simp only [List.nil_append] at hT hD ⊢
        by_cases hdash : e = '-'
        · subst hdash
          have hds0 : r3.takeWhile Char.isDigit = [] := by
            cases r3 with
            | nil => rfl
            | cons d r4 =>
              rw [List.takeWhile_cons, if_neg]
              rw [hrest2 d r4 rfl]
              simp
          simp [matchCapture, hT, hD, hane, hds0, hv]
        · simp [matchCapture, hT, hD, hane, hdash, hv]
    · subst hbds
      have hdstake : (ds ++ rest).takeWhile Char.isDigit = ds := by
        refine (takeWhile_append_of_all ds rest hdsall ?_).1
        cases rest with
        | nil => exact Or.inl rfl
        | cons e r3 => exact Or.inr ⟨e, r3, rfl, hrestd e r3 rfl⟩
      have hD2 : (a ++ ('-' :: ds ++ rest)).dropWhile isDigitDot =
          '-' :: (ds ++ rest) := by
        rw [hD]
        simp
      simp only [matchCapture]
      rw [hT, hD2, if_neg hane]
      simp [hdstake, hds, hv]

end Belex

namespace Belex

theorem matchTail_eq_some_iff (tail v : List Char) :
    matchTail tail = some v ↔ TailMatch tail v := by
  cases tail with
  | nil =>
    constructor
    · intro h
      simp [matchTail, matchCapture] at h
    · rintro ⟨sep, cs2, heq, hsep, a, b, rest, hcs2, hv, hane, _, _⟩
      obtain ⟨hsepnil, hcs2nil⟩ := List.append_eq_nil.mp heq.symm
      subst hcs2nil
      obtain ⟨hanil, _⟩ := List.append_eq_nil.mp (List.append_eq_nil.mp hcs2.symm).1
      exact absurd hanil hane
  | cons c rest =>
    by_cases hsc : sepChar c = true
    · have heq : matchTail (c :: rest) = matchCapture rest := by
        simp [matchTail, hsc]
      rw [heq, matchCapture_eq_some_iff]
      constructor
      · intro hcap
        exact ⟨[c], rest, rfl, Or.inr ⟨c, hsc, rfl⟩, hcap⟩
      · rintro ⟨sep, cs2, heq2, hsep, hcap⟩
        rcases hsep with hnil | ⟨c2, hc2, hsep1⟩
        · subst hnil
          rw [List.nil_append] at heq2
          subst heq2
          obtain ⟨a, b, r, hca, hv, hane, hall, _⟩ := hcap
          cases a with
          | nil => exact absurd rfl hane
          | cons a0 as =>
            obtain ⟨ha0, _⟩ := List.cons.injEq .. ▸ hca
            have hdd : isDigitDot a0 = true :=
              hall a0 (List.mem_cons_self a0 as)
            rw [← ha0] at hdd
            rw [sep_not_digitdot c hsc] at hdd
            cases hdd
        · subst hsep1
          rw [List.cons_append, List.nil_append] at heq2
          obtain ⟨hcc, hcs2⟩ := List.cons.injEq .. ▸ heq2
          subst hcs2
          exact hcap
    · have heq : matchTail (c :: rest) = matchCapture (c :: rest) := by
        simp [matchTail, hsc]
      rw [heq, matchCapture_eq_some_iff]
      constructor
      · intro hcap
        exact ⟨[], c :: rest, rfl, Or.inl rfl, hcap⟩
      · rintro ⟨sep, cs2, heq2, hsep, hcap⟩
        rcases hsep with hnil | ⟨c2, hc2, hsep1⟩
        · subst hnil
          rw [List.nil_append] at heq2
          subst heq2
          exact hcap
        · subst hsep1
          rw [List.cons_append, List.nil_append] at heq2
          obtain ⟨hcc, _⟩ := List.cons.injEq .. ▸ heq2
          rw [hcc] at hsc
          exact absurd hc2 hsc

theorem matchAt_zero_iff (cs v : List Char) :
    MatchAt cs 0 v ↔ ∃ tail, cs = 'B' :: 'S' :: 'G' :: tail ∧ TailMatch tail v := by
  constructor
  · rintro ⟨pre, tail, heq, hlen, htm⟩
    have : pre = [] := List.length_eq_zero.mp hlen
    subst this
    rw [List.nil_append] at heq
    exact ⟨tail, heq, htm⟩
  · rintro ⟨tail, heq, htm⟩
    exact ⟨[], tail, by simpa using heq, rfl, htm⟩

theorem matchAt_succ_iff (c : Char) (cs : List Char) (i : Nat) (v : List Char) :
    MatchAt (c :: cs) (i + 1) v ↔ MatchAt cs i v := by
  constructor
  · rintro ⟨pre, tail, heq, hlen, htm⟩
    cases pre with
    | nil => simp at hlen
    | cons p0 pre2 =>
      rw [List.cons_append] at heq
      obtain ⟨_, heq2⟩ := List.cons.injEq .. ▸ heq
      rw [List.length_cons] at hlen
      exact ⟨pre2, tail, heq2, Nat.succ_injective hlen, htm⟩
  · rintro ⟨pre, tail, heq, hlen, htm⟩
    exact ⟨c :: pre, tail, by rw [List.cons_append, heq],
      by rw [List.length_cons, hlen], htm⟩

theorem hasMatchAt_succ_iff (c : Char) (cs : List Char) (i : Nat) :
    HasMatchAt (c :: cs) (i + 1) ↔ HasMatchAt cs i := by
  constructor
  · rintro ⟨v, hm⟩
    exact ⟨v, (matchAt_succ_iff c cs i v).mp hm⟩
  · rintro ⟨v, hm⟩
    exact ⟨v, (matchAt_succ_iff c cs i v).mpr hm⟩

theorem not_hasMatchAt_nil (i : Nat) : ¬ HasMatchAt [] i := by
  rintro ⟨v, pre, tail, heq, _, _⟩
  exact absurd heq.symm (List.append_ne_nil_of_right_ne_nil pre (List.cons_ne_nil _ _))

theorem hasMatchAt_zero_shape (cs : List Char) (h : HasMatchAt cs 0) :
    ∃ tail, cs = 'B' :: 'S' :: 'G' :: tail := by
  obtain ⟨v, hm⟩ := h
  obtain ⟨tail, heq, _⟩ := (matchAt_zero_iff cs v).mp hm
  exact ⟨tail, heq⟩

/-- Zero-position and shifted matches determine the step behaviour of the
left-to-right scan. -/
theorem firstMatch_cons_iff (c : Char) (cs : List Char) (v : List Char)
    (h0 : ¬ HasMatchAt (c :: cs) 0) :
    FirstMatch (c :: cs) v ↔ FirstMatch cs v := by
  constructor
  · rintro ⟨i, hm, hearlier⟩
    cases i with
    | zero => exact absurd ⟨v, hm⟩ h0
    | succ i2 =>
      refine ⟨i2, (matchAt_succ_iff c cs i2 v).mp hm, ?_⟩
      intro j hj hmj
      exact hearlier (j + 1) (Nat.succ_lt_succ hj)
        ((hasMatchAt_succ_iff c cs j).mpr hmj)
  · rintro ⟨i, hm, hearlier⟩
    refine ⟨i + 1, (matchAt_succ_iff c cs i v).mpr hm, ?_⟩
    intro j hj
    cases j with
    | zero => exact h0
    | succ j2 =>
      rw [hasMatchAt_succ_iff c cs j2]
      exact hearlier j2 (Nat.lt_of_succ_lt_succ hj)

theorem noMatch_cons_iff (c : Char) (cs : List Char)
    (h0 : ¬ HasMatchAt (c :: cs) 0) :
    (∀ i, ¬ HasMatchAt (c :: cs) i) ↔ (∀ i, ¬ HasMatchAt cs i) := by
  constructor
  · intro h i hmi
    exact h (i + 1) ((hasMatchAt_succ_iff c cs i).mpr hmi)
  · intro h i
    cases i with
    | zero => exact h0
    | succ i2 =>
      rw [hasMatchAt_succ_iff c cs i2]
      exact h i2

end Belex

namespace Belex

/-- Correctness of the left-to-right scan: `searchFrom` returns `some v`
exactly when `v` is the capture of the leftmost match, and `none`
exactly when no position matches. -/
theorem searchFrom_spec (cs : List Char) :
    (∀ v, searchFrom cs = some v ↔ FirstMatch cs v) ∧
    (searchFrom cs = none ↔ ∀ i, ¬ HasMatchAt cs i) := by
  induction cs with
  | nil =>
    constructor
    · intro v
      constructor
      · intro h
        simp [searchFrom] at h
      · rintro ⟨i, hm, _⟩
        exact absurd ⟨v, hm⟩ (not_hasMatchAt_nil i)
    · exact iff_of_true rfl not_hasMatchAt_nil
  | cons c rest ih =>
    by_cases hB : c = 'B' ∧ rest.take 2 = ['S', 'G']
    · obtain ⟨hc, ht⟩ := hB
      subst hc
      obtain ⟨tail, hrest⟩ : ∃ tail, rest = 'S' :: 'G' :: tail := by
        cases rest with
        | nil => simp [List.take] at ht
        | cons r1 rest1 =>
          cases rest1 with
          | nil => simp [List.take] at ht
          | cons r2 rest2 =>
            simp only [List.take, List.cons.injEq] at ht
            obtain ⟨h1, h2, _⟩ := ht
            subst h1
            subst h2
            exact ⟨rest2, rfl⟩
      subst hrest
      have hcond : ('B' : Char) = 'B' ∧
          (('S' :: 'G' :: tail).take 2 = ['S', 'G']) := by
        exact ⟨rfl, rfl⟩
      have hdrop : ('S' :: 'G' :: tail).drop 2 = tail := rfl
      have hmz : ∀ w, MatchAt ('B' :: 'S' :: 'G' :: tail) 0 w ↔ TailMatch tail w := by
        intro w
        rw [matchAt_zero_iff]
        constructor
        · rintro ⟨tail2, heq, htm⟩
          obtain ⟨_, h2⟩ := List.cons.injEq .. ▸ heq
          obtain ⟨_, h3⟩ := List.cons.injEq .. ▸ h2
          obtain ⟨_, h4⟩ := List.cons.injEq .. ▸ h3
          rw [h4]
          exact htm
        · intro htm
          exact ⟨tail, rfl, htm⟩
      cases hmt : matchTail tail with
      | some v0 =>
        have heq : searchFrom ('B' :: 'S' :: 'G' :: tail) = some v0 := by
          rw [searchFrom, if_pos hcond, hdrop, hmt]
        have hm0 : MatchAt ('B' :: 'S' :: 'G' :: tail) 0 v0 :=
          (hmz v0).mpr ((matchTail_eq_some_iff tail v0).mp hmt)
        have hfm : FirstMatch ('B' :: 'S' :: 'G' :: tail) v0 :=
          ⟨0, hm0, fun j hj => absurd hj (Nat.not_lt_zero j)⟩
        constructor
        · intro v
          rw [heq]
          constructor
          · intro h
            obtain rfl : v0 = v := Option.some_injective _ h
            exact hfm
          · rintro ⟨i, hm, hearlier⟩
            cases i with
            | zero =>
              have hv := (matchTail_eq_some_iff tail v).mpr ((hmz v).mp hm)
              rw [hmt] at hv
              exact hv
            | succ i2 =>
              exact absurd ⟨v0, hm0⟩ (hearlier 0 (Nat.succ_pos i2))
        · rw [heq]
          refine iff_of_false (by simp) ?_
          intro hno
          exact hno 0 ⟨v0, hm0⟩
      | none =>
        have heq : searchFrom ('B' :: 'S' :: 'G' :: tail) =
            searchFrom ('S' :: 'G' :: tail) := by
          rw [searchFrom, if_pos hcond, hdrop, hmt]
        have h0 : ¬ HasMatchAt ('B' :: 'S' :: 'G' :: tail) 0 := by
          rintro ⟨v, hm⟩
          have := (matchTail_eq_some_iff tail v).mpr ((hmz v).mp hm)
          rw [hmt] at this
          cases this
        constructor
        · intro v
          rw [heq, (ih.1 v), firstMatch_cons_iff _ _ v h0]
        · rw [heq, ih.2, noMatch_cons_iff _ _ h0]
    · have heq : searchFrom (c :: rest) = searchFrom rest := by
        rw [searchFrom, if_neg hB]
      have h0 : ¬ HasMatchAt (c :: rest) 0 := by
        intro h
        obtain ⟨tail, hsh⟩ := hasMatchAt_zero_shape _ h
        obtain ⟨h1, h2⟩ := List.cons.injEq .. ▸ hsh
        refine hB ⟨h1, ?_⟩
        rw [h2]
        rfl
      constructor
      · intro v
        rw [heq, (ih.1 v), firstMatch_cons_iff _ _ v h0]
      · rw [heq, ih.2, noMatch_cons_iff _ _ h0]

end Belex

/-- C4: `extract_bsg_number` returns precisely the segment the spec
describes.  For every title: the function returns a value exactly when
the title matches the registry pattern (marker `BSG`, optional single
whitespace/underscore, then digits-and-dots optionally followed by
dash-and-digits), and the returned value is exactly the captured
digits/dots/optional-dash-suffix segment immediately following the
marker at the leftmost match (`FirstMatch`); for every non-matching
title it returns no value.  In particular
`extract_bsg_number "BSG_432.311" = "432.311"` and the book-group key of
`"432.311"` is `"432"`. -/
theorem C4_extract_bsg_number_spec :
    (∀ (t : String) (v : List Char),
      Belex.extract_bsg_number t = some (String.mk v) ↔
        Belex.FirstMatch t.data v) ∧
    (∀ t : String,
      Belex.extract_bsg_number t = none ↔ ∀ i, ¬ Belex.HasMatchAt t.data i) ∧
    Belex.extract_bsg_number "BSG_432.311" = some "432.311" ∧
    Belex.bookKey "432.311" = "432" := by
  refine ⟨?_, ?_, rfl, by decide⟩
  · intro t v
    rw [show Belex.extract_bsg_number t = (Belex.searchFrom t.data).map String.mk from rfl]
    rw [← (Belex.searchFrom_spec t.data).1 v]
    cases h : Belex.searchFrom t.data with
    | none => simp
    | some w =>
      constructor
      · intro hmk
        have hmk2 : String.mk w = String.mk v := by
          simpa using hmk
        have hw : w = v := by
          injection hmk2
        rw [hw]
      · intro hw
        have hw2 : w = v := Option.some_injective _ hw
        subst hw2
        rfl
  · intro t
    rw [show Belex.extract_bsg_number t = (Belex.searchFrom t.data).map String.mk from rfl]
    rw [← (Belex.searchFrom_spec t.data).2]
    cases h : Belex.searchFrom t.data <;> simp
